import Mathlib

/-!
Verification of the reply-dispatch engine of the openclaw repository.

Text is modelled as `List Char` (named `Str` below); JS string operations
such as `trimEnd`, `trim`, `startsWith`, `slice` are given explicit
executable definitions over `List Char`.  Machine time is modelled as a
`Nat` millisecond clock.  Following the concurrency model stated by the
specification (single-threaded, cooperative, suspension only at external
I/O boundaries), each public operation of a component is embedded as an
atomic state transformer, and an execution is a list of timed events
folded over the state.  Outbound sink calls are recorded in an explicit
trace inside the state.
-/

namespace Draft

/-- Character sequence standing for a JS string. -/
abbrev Str := List Char

/-- Whitespace test used by the JS `trim` family. -/
def wsChar (c : Char) : Bool := c.isWhitespace

/-- JS `String.prototype.trimEnd`: remove trailing whitespace. -/
def trimEnd : Str → Str
  | [] => []
  | c :: cs =>
      let r := trimEnd cs
      if r = [] ∧ wsChar c = true then [] else c :: r

/-- JS `String.prototype.trimStart`: remove leading whitespace. -/
def trimStart (s : Str) : Str := s.dropWhile wsChar

/-- JS `String.prototype.trim`. -/
def trim (s : Str) : Str := trimStart (trimEnd s)

theorem trimEnd_nil_of_mem_ws (s : Str) (h : ∀ c ∈ trimEnd s, wsChar c = true) :
    trimEnd s = [] := by
  induction s with
  | nil => rfl
  | cons c cs ih =>
      by_cases hcond : trimEnd cs = [] ∧ wsChar c = true
      · simp [trimEnd, hcond]
      · exfalso
        have hshape : trimEnd (c :: cs) = c :: trimEnd cs := by
          simp only [trimEnd]
          rw [if_neg hcond]
        rw [hshape] at h
        have hc : wsChar c = true := h c (List.mem_cons_self c _)
        have hrest : trimEnd cs = [] :=
          ih (fun x hx => h x (List.mem_cons_of_mem c hx))
        exact hcond ⟨hrest, hc⟩

theorem trim_eq_nil_iff (s : Str) : trim s = [] ↔ trimEnd s = [] := by
  constructor
  · intro h
    have hall : ∀ c ∈ trimEnd s, wsChar c = true := by
      simpa [trim, trimStart, List.dropWhile_eq_nil_iff] using h
    exact trimEnd_nil_of_mem_ws s hall
  · intro h
    simp [trim, h, trimStart]

/-- Configuration of one draft stream: `maxChars` and `throttleMs`
after the clamping performed by `createTelegramDraftStream`. -/
structure Config where
  maxChars : Nat
  throttleMs : Nat

/-- Result of one outbound Telegram API call made by the stream. -/
inductive SinkResult where
  | ok
  | notModified
  | err
deriving DecidableEq

/-- Mutable state captured by the closure of `createTelegramDraftStream`,
extended with an explicit trace of outbound calls: `sent` records every
`sendMessage`/`editMessageText` call (newest first, with its timestamp and
text), `deletes` counts `deleteMessage` calls, `warnings` counts `warn`
callbacks. -/
structure DState where
  lastSentText : Str
  lastSentAt : Nat
  pendingText : Str
  stopped : Bool
  sentMessageId : Option Nat
  timer : Option Nat
  sent : List (Nat × Str)
  deletes : Nat
  warnings : Nat

/-- State at creation time. -/
def initState : DState :=
  { lastSentText := [], lastSentAt := 0, pendingText := [], stopped := false,
    sentMessageId := none, timer := none, sent := [], deletes := 0, warnings := 0 }

/-- Embedding of `sendDraft` from `draft-stream.ts`: guards (stopped,
empty after `trimEnd`, length cap, identical content), then the API call,
whose outcome is `res`.  A thrown error whose message contains
"message is not modified" is `notModified` and is swallowed; any other
error sets `stopped` and reports through `warn`. -/
def sendDraft (cfg : Config) (s : DState) (text : Str) (now : Nat) (res : SinkResult) :
    DState :=
  if s.stopped = true then s
  else if trimEnd text = [] then s
  else if cfg.maxChars < (trimEnd text).length then
    { s with stopped := true, warnings := s.warnings + 1 }
  else if trimEnd text = s.lastSentText then s
  else
    match res with
    | .ok =>
        if s.sentMessageId = none then
          { s with lastSentText := trimEnd text, lastSentAt := now,
                   sent := (now, trimEnd text) :: s.sent, sentMessageId := some now }
        else
          { s with lastSentText := trimEnd text, lastSentAt := now,
                   sent := (now, trimEnd text) :: s.sent }
    | .notModified =>
        { s with lastSentText := trimEnd text, lastSentAt := now,
                 sent := (now, trimEnd text) :: s.sent }
    | .err =>
        { s with lastSentText := trimEnd text, lastSentAt := now,
                 sent := (now, trimEnd text) :: s.sent,
                 stopped := true, warnings := s.warnings + 1 }

/-- Embedding of `flush`: clear the timer, then send the pending text
unless it trims to nothing.  In the single-threaded embedding the
in-flight flag is always false when `flush` runs, the inner send happens
before `flush` returns, and `pendingText === text` always holds in the
empty branch. -/
def flushStep (cfg : Config) (s : DState) (now : Nat) (res : SinkResult) : DState :=
  if trim s.pendingText = [] then { s with timer := none, pendingText := [] }
  else sendDraft cfg { s with timer := none, pendingText := [] } s.pendingText now res

/-- Embedding of `schedule`: arm the timer (if not armed) for
`now + max 0 (throttleMs - (now - lastSentAt))`; `Nat` subtraction
already truncates at zero. -/
def scheduleStep (cfg : Config) (s : DState) (now : Nat) : DState :=
  match s.timer with
  | some _ => s
  | none => { s with timer := some (now + (cfg.throttleMs - (now - s.lastSentAt))) }

/-- Embedding of `update`: record the pending text, flush immediately
when no timer is armed and the throttle window has elapsed, otherwise
schedule. -/
def updateStep (cfg : Config) (s : DState) (text : Str) (now : Nat) (res : SinkResult) :
    DState :=
  if s.stopped = true then s
  else if s.timer = none ∧ cfg.throttleMs ≤ now - s.lastSentAt then
    flushStep cfg { s with pendingText := text } now res
  else scheduleStep cfg { s with pendingText := text } now

/-- Embedding of `stop`: set the stopped flag, drop the pending text and
clear any timer. -/
def stopStep (s : DState) : DState :=
  { s with stopped := true, pendingText := [], timer := none }

/-- Embedding of the `delete` operation: a `deleteMessage` call happens
only when the stream is not stopped and a message handle exists; a
failure is reported through `warn` and swallowed. -/
def deleteStep (s : DState) (res : SinkResult) : DState :=
  if s.stopped = true ∨ s.sentMessageId = none then s
  else
    match res with
    | .err => { s with deletes := s.deletes + 1, warnings := s.warnings + 1 }
    | _ => { s with deletes := s.deletes + 1 }

/-- One external stimulus to the stream: a public call at a given
millisecond, or the armed timer firing.  Each event that can reach the
sink carries the sink outcome. -/
inductive DEvent where
  | upd (now : Nat) (text : Str) (res : SinkResult)
  | flushE (now : Nat) (res : SinkResult)
  | timerE (now : Nat) (res : SinkResult)
  | stopE
  | deleteE (res : SinkResult)

/-- Step function: the timer callback is `void flush()`, and fires only
while armed. -/
def step (cfg : Config) (s : DState) : DEvent → DState
  | .upd now text res => updateStep cfg s text now res
  | .flushE now res => flushStep cfg s now res
  | .timerE now res =>
      match s.timer with
      | some _ => flushStep cfg s now res
      | none => s
  | .stopE => stopStep s
  | .deleteE res => deleteStep s res

/-- Run a list of events. -/
def run (cfg : Config) (s : DState) (evs : List DEvent) : DState :=
  evs.foldl (step cfg) s

/-- Well-timed event list starting no earlier than `t0`: timestamps are
non-decreasing and the timer fires only while armed and not before its
deadline. -/
def validFrom (cfg : Config) (s : DState) (t0 : Nat) : List DEvent → Bool
  | [] => true
  | e :: rest =>
      match e with
      | .upd now _ _ =>
          decide (t0 ≤ now) && validFrom cfg (step cfg s e) now rest
      | .flushE now _ =>
          decide (t0 ≤ now) && validFrom cfg (step cfg s e) now rest
      | .timerE now _ =>
          decide (t0 ≤ now) &&
          (match s.timer with
           | some d => decide (d ≤ now)
           | none => false) &&
          validFrom cfg (step cfg s e) now rest
      | .stopE => validFrom cfg (step cfg s e) t0 rest
      | .deleteE _ => validFrom cfg (step cfg s e) t0 rest

/-- Consecutive trace entries (newest first) are at least `throttle`
milliseconds apart. -/
def gapsOK (throttle : Nat) : List (Nat × Str) → Bool
  | [] => true
  | [_] => true
  | (t1, _) :: (t2, x2) :: rest =>
      decide (t2 + throttle ≤ t1) && gapsOK throttle ((t2, x2) :: rest)

/-- Consecutive trace entries carry different texts. -/
def adjacentDistinct : List (Nat × Str) → Bool
  | [] => true
  | [_] => true
  | (_, x1) :: (t2, x2) :: rest =>
      decide (x1 ≠ x2) && adjacentDistinct ((t2, x2) :: rest)

/-- Every trace entry carries non-empty text within the length cap. -/
def entriesOK (cfg : Config) (l : List (Nat × Str)) : Bool :=
  l.all (fun e => decide (e.2 ≠ []) && decide (e.2.length ≤ cfg.maxChars))

/-- Event list without explicit `flush()` calls. -/
def noFlushE (evs : List DEvent) : Bool :=
  evs.all (fun e => match e with | .flushE _ _ => false | _ => true)

/-- Either `sendDraft` leaves the outbound-relevant fields unchanged, or
it performs exactly one sink call pushing the trimmed text, with all the
guards that protect that call. -/
theorem sendDraft_fields (cfg : Config) (s : DState) (text : Str) (now : Nat)
    (res : SinkResult) :
    ((sendDraft cfg s text now res).sent = s.sent
      ∧ (sendDraft cfg s text now res).lastSentText = s.lastSentText
      ∧ (sendDraft cfg s text now res).lastSentAt = s.lastSentAt
      ∧ (sendDraft cfg s text now res).timer = s.timer
      ∧ (sendDraft cfg s text now res).pendingText = s.pendingText)
    ∨ (s.stopped = false ∧ trimEnd text ≠ [] ∧ (trimEnd text).length ≤ cfg.maxChars
        ∧ trimEnd text ≠ s.lastSentText
        ∧ (sendDraft cfg s text now res).sent = (now, trimEnd text) :: s.sent
        ∧ (sendDraft cfg s text now res).lastSentText = trimEnd text
        ∧ (sendDraft cfg s text now res).lastSentAt = now
        ∧ (sendDraft cfg s text now res).timer = s.timer
        ∧ (sendDraft cfg s text now res).pendingText = s.pendingText) := by
  unfold sendDraft
  by_cases h1 : s.stopped = true
  · left; rw [if_pos h1]; exact ⟨rfl, rfl, rfl, rfl, rfl⟩
  · rw [if_neg h1]
    by_cases h2 : trimEnd text = []
    · left; rw [if_pos h2]; exact ⟨rfl, rfl, rfl, rfl, rfl⟩
    · rw [if_neg h2]
      by_cases h3 : cfg.maxChars < (trimEnd text).length
      · left; rw [if_pos h3]; exact ⟨rfl, rfl, rfl, rfl, rfl⟩
      · rw [if_neg h3]
        by_cases h4 : trimEnd text = s.lastSentText
        · left; rw [if_pos h4]; exact ⟨rfl, rfl, rfl, rfl, rfl⟩
        · rw [if_neg h4]
          right
          refine ⟨Bool.eq_false_iff.mpr h1, h2, Nat.le_of_not_lt h3, h4, ?_⟩
          cases res with
          | ok =>
              dsimp only
              by_cases h5 : s.sentMessageId = none
              · rw [if_pos h5]; exact ⟨rfl, rfl, rfl, rfl, rfl⟩
              · rw [if_neg h5]; exact ⟨rfl, rfl, rfl, rfl, rfl⟩
          | notModified => exact ⟨rfl, rfl, rfl, rfl, rfl⟩
          | err => exact ⟨rfl, rfl, rfl, rfl, rfl⟩

/-- Trace invariant maintained by every step: the newest trace entry is
the last sent text, an empty trace means nothing was ever sent, every
entry is non-empty and within the cap, and adjacent entries differ. -/
def TraceInv (cfg : Config) (s : DState) : Prop :=
  (s.sent = [] → s.lastSentText = [])
  ∧ (∀ t x rest, s.sent = (t, x) :: rest → x = s.lastSentText)
  ∧ entriesOK cfg s.sent = true
  ∧ adjacentDistinct s.sent = true

theorem traceInv_init (cfg : Config) : TraceInv cfg initState := by
  refine ⟨fun _ => rfl, fun t x rest h => by simp [initState] at h, rfl, rfl⟩

theorem traceInv_congr (cfg : Config) (s s2 : DState)
    (hs : s2.sent = s.sent) (hl : s2.lastSentText = s.lastSentText)
    (h : TraceInv cfg s) : TraceInv cfg s2 := by
  obtain ⟨h1, h2, h3, h4⟩ := h
  exact ⟨fun hn => hl.trans (h1 (hs ▸ hn)),
    fun t x rest hr => (h2 t x rest (hs ▸ hr)).trans hl.symm,
    by rw [hs]; exact h3, by rw [hs]; exact h4⟩

theorem adjacentDistinct_cons (t1 : Nat) (x1 : Str) (l : List (Nat × Str))
    (h : adjacentDistinct l = true)
    (hne : ∀ t2 x2 rest, l = (t2, x2) :: rest → x1 ≠ x2) :
    adjacentDistinct ((t1, x1) :: l) = true := by
  cases l with
  | nil => rfl
  | cons p rest =>
      obtain ⟨t2, x2⟩ := p
      simp only [adjacentDistinct, Bool.and_eq_true, decide_eq_true_eq]
      exact ⟨hne t2 x2 rest rfl, h⟩

theorem traceInv_sendDraft (cfg : Config) (s : DState) (text : Str) (now : Nat)
    (res : SinkResult) (h : TraceInv cfg s) :
    TraceInv cfg (sendDraft cfg s text now res) := by
  rcases sendDraft_fields cfg s text now res with
    ⟨hs, hl, _⟩ | ⟨_, hne, hlen, hdiff, hs, hl, _⟩
  · exact traceInv_congr cfg s _ hs hl h
  · obtain ⟨h1, h2, h3, h4⟩ := h
    refine ⟨?_, ?_, ?_, ?_⟩
    · intro hn; rw [hs] at hn; exact absurd hn (by simp)
    · intro t x rest hr
      rw [hs] at hr
      injection hr with hr1 hr2
      injection hr1 with _ hx
      rw [hl, hx]
    · rw [hs]
      simp only [entriesOK, List.all_cons, Bool.and_eq_true, decide_eq_true_eq]
      exact ⟨⟨hne, hlen⟩, h3⟩
    · rw [hs]
      refine adjacentDistinct_cons now _ s.sent h4 ?_
      intro t2 x2 rest hr
      rw [h2 t2 x2 rest hr]
      exact hdiff

theorem traceInv_flushStep (cfg : Config) (s : DState) (now : Nat) (res : SinkResult)
    (h : TraceInv cfg s) : TraceInv cfg (flushStep cfg s now res) := by
  unfold flushStep
  by_cases hc : trim s.pendingText = []
  · rw [if_pos hc]
    exact traceInv_congr cfg s _ rfl rfl h
  · rw [if_neg hc]
    exact traceInv_sendDraft cfg _ _ now res (traceInv_congr cfg s _ rfl rfl h)

theorem traceInv_step (cfg : Config) (s : DState) (e : DEvent)
    (h : TraceInv cfg s) : TraceInv cfg (step cfg s e) := by
  cases e with
  | upd now text res =>
      simp only [step, updateStep]
      by_cases h1 : s.stopped = true
      · rw [if_pos h1]; exact h
      · rw [if_neg h1]
        by_cases h2 : s.timer = none ∧ cfg.throttleMs ≤ now - s.lastSentAt
        · rw [if_pos h2]
          exact traceInv_flushStep cfg _ now res (traceInv_congr cfg s _ rfl rfl h)
        · rw [if_neg h2]
          dsimp only [scheduleStep]
          cases s.timer <;> exact traceInv_congr cfg s _ rfl rfl h
  | flushE now res => exact traceInv_flushStep cfg s now res h
  | timerE now res =>
      simp only [step]
      cases htm : s.timer with
      | some d => exact traceInv_flushStep cfg s now res h
      | none => exact h
  | stopE => exact traceInv_congr cfg s _ rfl rfl h
  | deleteE res =>
      simp only [step, deleteStep]
      by_cases h1 : s.stopped = true ∨ s.sentMessageId = none
      · rw [if_pos h1]; exact h
      · rw [if_neg h1]
        cases res <;> exact traceInv_congr cfg s _ rfl rfl h

theorem traceInv_run (cfg : Config) (s : DState) (evs : List DEvent)
    (h : TraceInv cfg s) : TraceInv cfg (run cfg s evs) := by
  induction evs generalizing s with
  | nil => exact h
  | cons e rest ih => exact ih (step cfg s e) (traceInv_step cfg s e h)

/-- Throttle invariant: `t0` bounds the next event time from below, the
newest trace entry happened at `lastSentAt`, an armed timer never fires
inside the throttle window, and the recorded sends are spaced out. -/
def GapInv (cfg : Config) (s : DState) (t0 : Nat) : Prop :=
  s.lastSentAt ≤ t0
  ∧ (∀ t x rest, s.sent = (t, x) :: rest → t = s.lastSentAt)
  ∧ (∀ d, s.timer = some d → s.lastSentAt + cfg.throttleMs ≤ d)
  ∧ gapsOK cfg.throttleMs s.sent = true

theorem gapsOK_cons (throttle t1 : Nat) (x1 : Str) (l : List (Nat × Str))
    (h : gapsOK throttle l = true)
    (hgap : ∀ t2 x2 rest, l = (t2, x2) :: rest → t2 + throttle ≤ t1) :
    gapsOK throttle ((t1, x1) :: l) = true := by
  cases l with
  | nil => rfl
  | cons p rest =>
      obtain ⟨t2, x2⟩ := p
      simp only [gapsOK, Bool.and_eq_true, decide_eq_true_eq]
      exact ⟨hgap t2 x2 rest rfl, h⟩

theorem gapInv_congr (cfg : Config) (s s2 : DState) (t0 t1 : Nat)
    (hs : s2.sent = s.sent) (hl : s2.lastSentAt = s.lastSentAt)
    (ht : s2.timer = s.timer) (hle : t0 ≤ t1)
    (h : GapInv cfg s t0) : GapInv cfg s2 t1 := by
  obtain ⟨h1, h2, h3, h4⟩ := h
  refine ⟨hl ▸ Nat.le_trans h1 hle, ?_, ?_, by rw [hs]; exact h4⟩
  · intro t x rest hr
    rw [hl]
    exact h2 t x rest (hs ▸ hr)
  · intro d hd
    rw [hl]
    exact h3 d (ht ▸ hd)

theorem gapInv_flushStep (cfg : Config) (s : DState) (t0 now : Nat) (res : SinkResult)
    (h : GapInv cfg s t0) (hle : t0 ≤ now)
    (hwin : s.lastSentAt + cfg.throttleMs ≤ now) :
    GapInv cfg (flushStep cfg s now res) now := by
  obtain ⟨h1, h2, h3, h4⟩ := h
  unfold flushStep
  by_cases hc : trim s.pendingText = []
  · rw [if_pos hc]
    exact ⟨Nat.le_trans h1 hle, h2, fun d hd => by simp at hd, h4⟩
  · rw [if_neg hc]
    rcases sendDraft_fields cfg { s with timer := none, pendingText := [] }
        s.pendingText now res with
      ⟨hs, _, hla, ht, _⟩ | ⟨_, _, _, _, hs, _, hla, ht, _⟩
    · refine ⟨?_, ?_, ?_, ?_⟩
      · rw [hla]
        exact Nat.le_trans h1 hle
      · intro t x rest hr
        rw [hla]
        exact h2 t x rest (hs ▸ hr)
      · intro d hd
        rw [ht] at hd
        simp at hd
      · rw [hs]; exact h4
    · refine ⟨?_, ?_, ?_, ?_⟩
      · rw [hla]
      · intro t x rest hr
        rw [hs] at hr
        injection hr with hr1 _
        injection hr1 with hteq _
        rw [hla, hteq]
      · intro d hd
        rw [ht] at hd
        simp at hd
      · rw [hs]
        refine gapsOK_cons cfg.throttleMs now _ _ h4 ?_
        intro t2 x2 rest hr
        have := h2 t2 x2 rest hr
        omega

theorem scheduleStep_fields (cfg : Config) (s : DState) (now : Nat) :
    (scheduleStep cfg s now).sent = s.sent
    ∧ (scheduleStep cfg s now).lastSentAt = s.lastSentAt
    ∧ (scheduleStep cfg s now).pendingText = s.pendingText
    ∧ (scheduleStep cfg s now).stopped = s.stopped
    ∧ ((scheduleStep cfg s now).timer = s.timer
        ∨ (scheduleStep cfg s now).timer
            = some (now + (cfg.throttleMs - (now - s.lastSentAt)))) := by
  unfold scheduleStep
  cases htimer : s.timer <;> simp [htimer]

theorem gapInv_step_upd (cfg : Config) (s : DState) (t0 now : Nat) (text : Str)
    (res : SinkResult) (h : GapInv cfg s t0) (hle : t0 ≤ now) :
    GapInv cfg (updateStep cfg s text now res) now := by
  unfold updateStep
  by_cases h1 : s.stopped = true
  · rw [if_pos h1]
    exact gapInv_congr cfg s s t0 now rfl rfl rfl hle h
  · rw [if_neg h1]
    by_cases h2 : s.timer = none ∧ cfg.throttleMs ≤ now - s.lastSentAt
    · rw [if_pos h2]
      have hwin : s.lastSentAt + cfg.throttleMs ≤ now := by
        have hl := h.1
        have := h2.2
        omega
      exact gapInv_flushStep cfg _ t0 now res
        (gapInv_congr cfg s _ t0 t0 rfl rfl rfl (Nat.le_refl t0) h) hle hwin
    · rw [if_neg h2]
      obtain ⟨hl, hh, htm, hg⟩ := h
      obtain ⟨hs, hla, _, _, htcase⟩ :=
        scheduleStep_fields cfg { s with pendingText := text } now
      refine ⟨?_, ?_, ?_, ?_⟩
      · rw [hla]
        exact Nat.le_trans hl hle
      · intro t x rest hr
        rw [hla]
        exact hh t x rest (hs ▸ hr)
      · intro d hd
        rcases htcase with ht | ht
        · rw [ht] at hd
          rw [hla]
          exact htm d hd
        · rw [ht] at hd
          simp at hd
          rw [hla]
          show s.lastSentAt + cfg.throttleMs ≤ d
          have hnow : s.lastSentAt ≤ now := Nat.le_trans hl hle
          omega
      · rw [hs]
        exact hg

theorem gapInv_run (cfg : Config) (evs : List DEvent) (s : DState) (t0 : Nat)
    (h : GapInv cfg s t0) (hv : validFrom cfg s t0 evs = true)
    (hnf : noFlushE evs = true) : ∃ t1, GapInv cfg (run cfg s evs) t1 := by
  induction evs generalizing s t0 with
  | nil => exact ⟨t0, h⟩
  | cons e rest ih =>
      have hnf2 : noFlushE rest = true := by
        simp only [noFlushE, List.all_cons, Bool.and_eq_true] at hnf
        exact hnf.2
      cases e with
      | upd now text res =>
          simp only [validFrom, Bool.and_eq_true, decide_eq_true_eq] at hv
          exact ih (step cfg s (.upd now text res)) now
            (gapInv_step_upd cfg s t0 now text res h hv.1) hv.2 hnf2
      | flushE now res =>
          simp only [noFlushE, List.all_cons, Bool.and_eq_true] at hnf
          simp at hnf
      | timerE now res =>
          cases htimer : s.timer with
          | none =>
              simp only [validFrom, htimer, Bool.and_eq_true] at hv
              simp at hv
          | some d =>
              simp only [validFrom, htimer, Bool.and_eq_true, decide_eq_true_eq] at hv
              obtain ⟨⟨hle, hdle⟩, hv2⟩ := hv
              have hwin : s.lastSentAt + cfg.throttleMs ≤ now :=
                Nat.le_trans (h.2.2.1 d htimer) hdle
              have hstep : step cfg s (.timerE now res) = flushStep cfg s now res := by
                simp [step, htimer]
              refine ih (step cfg s (.timerE now res)) now ?_ hv2 hnf2
              rw [hstep]
              exact gapInv_flushStep cfg s t0 now res h hle hwin
      | stopE =>
          simp only [validFrom] at hv
          refine ih (step cfg s .stopE) t0 ?_ hv hnf2
          obtain ⟨hl, hh, htm, hg⟩ := h
          exact ⟨hl, hh, fun d hd => by simp [step, stopStep] at hd, hg⟩
      | deleteE res =>
          simp only [validFrom] at hv
          refine ih (step cfg s (.deleteE res)) t0 ?_ hv hnf2
          simp only [step, deleteStep]
          by_cases h1 : s.stopped = true ∨ s.sentMessageId = none
          · rw [if_pos h1]; exact h
          · rw [if_neg h1]
            cases res <;>
              exact gapInv_congr cfg s _ t0 t0 rfl rfl rfl (Nat.le_refl t0) h

/-- Constant from `draft-stream.ts`. -/
def TELEGRAM_DRAFT_MAX_CHARS : Nat := 4096

/-- Constant from `draft-stream.ts`. -/
def DEFAULT_THROTTLE_MS : Nat := 300

/-- Clamp performed on the requested `maxChars` at stream creation. -/
def effectiveMaxChars (requested : Option Nat) : Nat :=
  min (requested.getD TELEGRAM_DRAFT_MAX_CHARS) TELEGRAM_DRAFT_MAX_CHARS

/-- Clamp performed on the requested `throttleMs` at stream creation. -/
def effectiveThrottleMs (requested : Option Nat) : Nat :=
  max 50 (requested.getD DEFAULT_THROTTLE_MS)

theorem flushStep_of_pending_nil (cfg : Config) (s : DState) (now : Nat)
    (res : SinkResult) (h : s.pendingText = []) :
    flushStep cfg s now res = { s with timer := none, pendingText := [] } := by
  unfold flushStep
  rw [if_pos (by rw [h]; rfl)]

theorem sendDraft_of_stopped (cfg : Config) (s : DState) (text : Str) (now : Nat)
    (res : SinkResult) (h : s.stopped = true) :
    sendDraft cfg s text now res = s := by
  unfold sendDraft
  rw [if_pos h]

theorem flushStep_stopped_mono (cfg : Config) (s : DState) (now : Nat)
    (res : SinkResult) (h : s.stopped = true) :
    (flushStep cfg s now res).stopped = true := by
  unfold flushStep
  by_cases hc : trim s.pendingText = []
  · rw [if_pos hc]; exact h
  · rw [if_neg hc]
    rw [sendDraft_of_stopped cfg { s with timer := none, pendingText := [] }
      s.pendingText now res h]
    exact h

theorem step_stopped_mono (cfg : Config) (s : DState) (e : DEvent)
    (h : s.stopped = true) : (step cfg s e).stopped = true := by
  cases e with
  | upd now text res =>
      simp only [step, updateStep]
      rw [if_pos h]
      exact h
  | flushE now res => exact flushStep_stopped_mono cfg s now res h
  | timerE now res =>
      simp only [step]
      cases htm : s.timer with
      | some d => exact flushStep_stopped_mono cfg s now res h
      | none => exact h
  | stopE => rfl
  | deleteE res =>
      simp only [step, deleteStep]
      rw [if_pos (Or.inl h)]
      exact h

/-- A successful `sendDraft` whose argument trims to non-empty text and
which leaves the engine running ends with `lastSentText` equal to the
trimmed argument, and the newest trace entry carries that text. -/
theorem sendDraft_delivers (cfg : Config) (s : DState) (text : Str) (now : Nat)
    (res : SinkResult) (hinv : TraceInv cfg s)
    (hstop2 : (sendDraft cfg s text now res).stopped = false)
    (htxt : trimEnd text ≠ []) :
    (sendDraft cfg s text now res).lastSentText = trimEnd text
    ∧ (sendDraft cfg s text now res).pendingText = s.pendingText
    ∧ (sendDraft cfg s text now res).timer = s.timer
    ∧ ∃ t rest, (sendDraft cfg s text now res).sent = (t, trimEnd text) :: rest := by
  unfold sendDraft at hstop2 ⊢
  by_cases h1 : s.stopped = true
  · rw [if_pos h1] at hstop2
    rw [h1] at hstop2
    exact absurd hstop2 (by decide)
  · rw [if_neg h1] at hstop2 ⊢
    rw [if_neg htxt] at hstop2 ⊢
    by_cases h3 : cfg.maxChars < (trimEnd text).length
    · rw [if_pos h3] at hstop2
      simp at hstop2
    · rw [if_neg h3] at hstop2 ⊢
      by_cases h4 : trimEnd text = s.lastSentText
      · rw [if_pos h4]
        refine ⟨h4.symm, rfl, rfl, ?_⟩
        cases hsent : s.sent with
        | nil =>
            have hnil := hinv.1 hsent
            rw [hnil] at h4
            exact absurd h4 htxt
        | cons p rest =>
            obtain ⟨t, x⟩ := p
            have hx := hinv.2.1 t x rest hsent
            exact ⟨t, rest, by rw [hx, h4]⟩
      · rw [if_neg h4] at hstop2 ⊢
        cases res with
        | ok =>
            dsimp only at hstop2 ⊢
            by_cases h5 : s.sentMessageId = none
            · rw [if_pos h5]
              exact ⟨rfl, rfl, rfl, now, s.sent, rfl⟩
            · rw [if_neg h5]
              exact ⟨rfl, rfl, rfl, now, s.sent, rfl⟩
        | notModified => exact ⟨rfl, rfl, rfl, now, s.sent, rfl⟩
        | err =>
            dsimp only at hstop2
            simp at hstop2

/-- A `flush` that leaves the engine running with non-empty pending text
delivers exactly that text (trimmed) as the newest sink call. -/
theorem flushStep_delivers (cfg : Config) (s : DState) (now : Nat) (res : SinkResult)
    (hinv : TraceInv cfg s)
    (hstop2 : (flushStep cfg s now res).stopped = false)
    (hpend : trimEnd s.pendingText ≠ []) :
    (flushStep cfg s now res).lastSentText = trimEnd s.pendingText
    ∧ (flushStep cfg s now res).pendingText = []
    ∧ (flushStep cfg s now res).timer = none
    ∧ ∃ t rest, (flushStep cfg s now res).sent = (t, trimEnd s.pendingText) :: rest := by
  have htr : trim s.pendingText ≠ [] := fun hh => hpend ((trim_eq_nil_iff _).mp hh)
  unfold flushStep at hstop2 ⊢
  rw [if_neg htr] at hstop2 ⊢
  obtain ⟨ha, hb, hc, hd⟩ :=
    sendDraft_delivers cfg { s with timer := none, pendingText := [] }
      s.pendingText now res (traceInv_congr cfg s _ rfl rfl hinv) hstop2 hpend
  exact ⟨ha, hb, hc, hd⟩

/-- Claim C1: for any prefix of activity followed by a final `update(txt)` and a
`flush()`, if the stream is still running afterwards and `txt` does not
trim to nothing, then the ultimately sent content is exactly `trimEnd txt`:
it is the text of the newest sink call, nothing is left pending and no
timer is armed.  In this single-threaded embedding the flush performs the
final send before returning, so the flush resolving implies the send has
completed. -/
theorem telegram_draft_last_update_delivered (cfg : Config) (front : List DEvent)
    (tn : Nat) (txt : Str) (rn : SinkResult) (tf : Nat) (rf : SinkResult)
    (hstop : (run cfg initState
        (front ++ [.upd tn txt rn, .flushE tf rf])).stopped = false)
    (htxt : trimEnd txt ≠ []) :
    (run cfg initState (front ++ [.upd tn txt rn, .flushE tf rf])).lastSentText
        = trimEnd txt
    ∧ (run cfg initState (front ++ [.upd tn txt rn, .flushE tf rf])).pendingText = []
    ∧ (run cfg initState (front ++ [.upd tn txt rn, .flushE tf rf])).timer = none
    ∧ ∃ t rest, (run cfg initState (front ++ [.upd tn txt rn, .flushE tf rf])).sent
        = (t, trimEnd txt) :: rest := by
  have hdecomp : run cfg initState (front ++ [.upd tn txt rn, .flushE tf rf])
      = flushStep cfg (updateStep cfg (run cfg initState front) txt tn rn) tf rf := by
    simp [run, List.foldl_append, step]
  rw [hdecomp] at hstop ⊢
  have hinvB : TraceInv cfg (run cfg initState front) :=
    traceInv_run cfg initState front (traceInv_init cfg)
  set sB := run cfg initState front with hsB
  have hBstop : sB.stopped = false := by
    by_contra hcon
    have hBtrue : sB.stopped = true := by
      cases hval : sB.stopped
      · exact absurd hval hcon
      · rfl
    have h1 : (updateStep cfg sB txt tn rn).stopped = true := by
      unfold updateStep
      rw [if_pos hBtrue]
      exact hBtrue
    have h2 := flushStep_stopped_mono cfg _ tf rf h1
    rw [hstop] at h2
    exact absurd h2 (by decide)
  unfold updateStep at hstop ⊢
  rw [if_neg (by rw [hBstop]; decide)] at hstop ⊢
  by_cases hdir : sB.timer = none ∧ cfg.throttleMs ≤ tn - sB.lastSentAt
  · rw [if_pos hdir] at hstop ⊢
    have hUstop : (flushStep cfg { sB with pendingText := txt } tn rn).stopped = false := by
      by_contra hcon
      have hUtrue : (flushStep cfg { sB with pendingText := txt } tn rn).stopped = true := by
        cases hval : (flushStep cfg { sB with pendingText := txt } tn rn).stopped
        · exact absurd hval hcon
        · rfl
      have h2 := flushStep_stopped_mono cfg _ tf rf hUtrue
      rw [hstop] at h2
      exact absurd h2 (by decide)
    obtain ⟨ha, hb, hc, hd⟩ := flushStep_delivers cfg { sB with pendingText := txt }
      tn rn (traceInv_congr cfg sB _ rfl rfl hinvB) hUstop htxt
    rw [flushStep_of_pending_nil cfg _ tf rf hb]
    exact ⟨ha, rfl, rfl, hd⟩
  · rw [if_neg hdir] at hstop ⊢
    obtain ⟨hs, hla, hp, hst, _⟩ := scheduleStep_fields cfg { sB with pendingText := txt } tn
    have hinvU : TraceInv cfg (scheduleStep cfg { sB with pendingText := txt } tn) := by
      refine traceInv_congr cfg sB _ ?_ ?_ hinvB
      · exact hs
      · unfold scheduleStep
        cases sB.timer <;> rfl
    have hpendU : trimEnd (scheduleStep cfg { sB with pendingText := txt } tn).pendingText
        ≠ [] := by
      rw [hp]
      exact htxt
    obtain ⟨ha, hb, hc, hd⟩ := flushStep_delivers cfg _ tf rf hinvU hstop hpendU
    rw [hp] at ha hd
    exact ⟨ha, hb, hc, hd⟩

/-- C1 witness: a single update followed by a flush. -/
theorem telegram_draft_c1_witness :
    (run ⟨4096, 300⟩ initState
        ([] ++ [.upd 1000 ['h', 'i'] .ok, .flushE 1001 .ok])).lastSentText
        = trimEnd ['h', 'i']
    ∧ (run ⟨4096, 300⟩ initState
        ([] ++ [.upd 1000 ['h', 'i'] .ok, .flushE 1001 .ok])).pendingText = []
    ∧ (run ⟨4096, 300⟩ initState
        ([] ++ [.upd 1000 ['h', 'i'] .ok, .flushE 1001 .ok])).timer = none
    ∧ ∃ t rest, (run ⟨4096, 300⟩ initState
        ([] ++ [.upd 1000 ['h', 'i'] .ok, .flushE 1001 .ok])).sent
        = (t, trimEnd ['h', 'i']) :: rest :=
  telegram_draft_last_update_delivered ⟨4096, 300⟩ [] 1000 ['h', 'i'] .ok 1001 .ok
    (by decide) (by decide)

/-- C2 counterexample: an explicit `flush()` call bypasses the throttle.
With `throttleMs = 300`, an update at t=1000 sends immediately, an update
at t=1100 only schedules, but a `flush()` at t=1100 sends right away:
two sink mutations 100 ms apart in a well-timed run. -/
theorem telegram_draft_c2_counterexample :
    validFrom ⟨4096, 300⟩ initState 0
        [.upd 1000 ['a'] .ok, .upd 1100 ['a', 'b'] .ok, .flushE 1100 .ok] = true
    ∧ gapsOK 300 (run ⟨4096, 300⟩ initState
        [.upd 1000 ['a'] .ok, .upd 1100 ['a', 'b'] .ok, .flushE 1100 .ok]).sent
        = false := by
  exact ⟨by decide, by decide⟩

/-- C2 (amended): in any well-timed run driven only by `update()` calls,
timer firings, `stop()` and `delete()` — with no explicit `flush()`
inside the window — any two consecutive outbound mutations are at least
`throttleMs` apart. -/
theorem telegram_draft_throttle_spacing (cfg : Config) (evs : List DEvent)
    (hv : validFrom cfg initState 0 evs = true) (hnf : noFlushE evs = true) :
    gapsOK cfg.throttleMs (run cfg initState evs).sent = true := by
  obtain ⟨t1, hinv⟩ := gapInv_run cfg evs initState 0
    ⟨Nat.le_refl 0, fun t x rest h => by simp [initState] at h,
      fun d hd => by simp [initState] at hd, rfl⟩ hv hnf
  exact hinv.2.2.2

/-- C2 witness: two updates and the armed timer firing at its deadline. -/
theorem telegram_draft_c2_witness :
    gapsOK 300 (run ⟨4096, 300⟩ initState
        [.upd 1000 ['a'] .ok, .upd 1100 ['a', 'b'] .ok, .timerE 1300 .ok]).sent
        = true :=
  telegram_draft_throttle_spacing ⟨4096, 300⟩
    [.upd 1000 ['a'] .ok, .upd 1100 ['a', 'b'] .ok, .timerE 1300 .ok]
    (by decide) (by decide)

/-- C3: `stop()` is idempotent, and from a stopped state every further
`update`, `flush`, timer firing, `stop` or `delete` leaves the state —
in particular the trace of outbound sink calls — completely unchanged. -/
theorem telegram_draft_stop_idempotent (cfg : Config) (s : DState) :
    stopStep (stopStep s) = stopStep s
    ∧ ∀ evs : List DEvent, run cfg (stopStep s) evs = stopStep s := by
  have hnoop : ∀ e : DEvent, step cfg (stopStep s) e = stopStep s := by
    intro e
    cases e with
    | upd now text res =>
        simp only [step, updateStep]
        rw [if_pos (show (stopStep s).stopped = true from rfl)]
    | flushE now res =>
        simp only [step, flushStep]
        rw [if_pos (show trim (stopStep s).pendingText = [] from rfl)]
        rfl
    | timerE now res =>
        simp only [step]
        rfl
    | stopE => rfl
    | deleteE res =>
        simp only [step, deleteStep]
        rw [if_pos (Or.inl (show (stopStep s).stopped = true from rfl))]
  refine ⟨rfl, ?_⟩
  intro evs
  induction evs with
  | nil => rfl
  | cons e rest ih =>
      show run cfg (step cfg (stopStep s) e) rest = stopStep s
      rw [hnoop e]
      exact ih

/-- C4: error handling of `sendDraft`.  Over-cap content permanently stops
the engine and reports one warning without any sink call; a
"message is not modified" sink response leaves the engine running; any
other sink failure stops the engine and reports one warning; and the
stopped flag, once set, is preserved by every event (terminal state).
All operations are total functions: no exception propagates. -/
theorem telegram_draft_error_handling (cfg : Config) :
    (∀ (s : DState) (text : Str) (now : Nat) (res : SinkResult),
        s.stopped = false → cfg.maxChars < (trimEnd text).length →
        sendDraft cfg s text now res
          = { s with stopped := true, warnings := s.warnings + 1 })
    ∧ (∀ (s : DState) (text : Str) (now : Nat),
        s.stopped = false → (trimEnd text).length ≤ cfg.maxChars →
        (sendDraft cfg s text now .notModified).stopped = false)
    ∧ (∀ (s : DState) (text : Str) (now : Nat),
        s.stopped = false → trimEnd text ≠ [] → (trimEnd text).length ≤ cfg.maxChars →
        trimEnd text ≠ s.lastSentText →
        (sendDraft cfg s text now .err).stopped = true
        ∧ (sendDraft cfg s text now .err).warnings = s.warnings + 1)
    ∧ (∀ (s : DState) (e : DEvent), s.stopped = true → (step cfg s e).stopped = true) := by
  refine ⟨?_, ?_, ?_, step_stopped_mono cfg⟩
  · intro s text now res hstop hlen
    have hne : trimEnd text ≠ [] := by
      intro hnil
      rw [hnil] at hlen
      simp at hlen
    unfold sendDraft
    rw [if_neg (by rw [hstop]; decide), if_neg hne, if_pos hlen]
  · intro s text now hstop hlen
    unfold sendDraft
    rw [if_neg (by rw [hstop]; decide)]
    by_cases h2 : trimEnd text = []
    · rw [if_pos h2]; exact hstop
    · rw [if_neg h2, if_neg (Nat.not_lt.mpr hlen)]
      by_cases h4 : trimEnd text = s.lastSentText
      · rw [if_pos h4]; exact hstop
      · rw [if_neg h4]
        exact hstop
  · intro s text now hstop hne hlen hdiff
    unfold sendDraft
    rw [if_neg (by rw [hstop]; decide), if_neg hne,
      if_neg (Nat.not_lt.mpr hlen), if_neg hdiff]
    exact ⟨rfl, rfl⟩

/-- C4 witness: concrete instances of all four conjuncts with
`maxChars = 2`. -/
theorem telegram_draft_c4_witness :
    sendDraft ⟨2, 300⟩ initState ['a', 'b', 'c'] 7 .ok
        = { initState with stopped := true, warnings := initState.warnings + 1 }
    ∧ (sendDraft ⟨2, 300⟩ initState ['a'] 7 .notModified).stopped = false
    ∧ ((sendDraft ⟨2, 300⟩ initState ['a'] 7 .err).stopped = true
        ∧ (sendDraft ⟨2, 300⟩ initState ['a'] 7 .err).warnings
            = initState.warnings + 1)
    ∧ (step ⟨2, 300⟩ (stopStep initState) .stopE).stopped = true :=
  ⟨(telegram_draft_error_handling ⟨2, 300⟩).1 initState ['a', 'b', 'c'] 7 .ok
      rfl (by decide),
    (telegram_draft_error_handling ⟨2, 300⟩).2.1 initState ['a'] 7 rfl (by decide),
    (telegram_draft_error_handling ⟨2, 300⟩).2.2.1 initState ['a'] 7 rfl
      (by decide) (by decide) (by decide),
    (telegram_draft_error_handling ⟨2, 300⟩).2.2.2 (stopStep initState) .stopE rfl⟩

/-- C10: the clamps applied at stream creation, and the invariant that in
every run each outbound sink call carries non-empty text of length at
most `maxChars`, and consecutive sink calls never carry the same text. -/
theorem telegram_draft_sink_call_invariants :
    (∀ r : Option Nat, effectiveMaxChars r ≤ TELEGRAM_DRAFT_MAX_CHARS)
    ∧ (∀ r : Option Nat, 50 ≤ effectiveThrottleMs r)
    ∧ ∀ (cfg : Config) (evs : List DEvent),
        entriesOK cfg (run cfg initState evs).sent = true
        ∧ adjacentDistinct (run cfg initState evs).sent = true := by
  refine ⟨fun r => Nat.min_le_right _ _, fun r => Nat.le_max_left _ _, ?_⟩
  intro cfg evs
  have h := traceInv_run cfg initState evs (traceInv_init cfg)
  exact ⟨h.2.2.1, h.2.2.2⟩

end Draft

namespace Dispatch

open Draft (Str)

/-- Modelled from the spec: the `EmbeddedBlockChunker` class (imported by
the dispatcher from `pi-embedded-block-chunker.js`, whose source is not
part of this snapshot).  Per the spec contract it buffers appended
fragments and `drain` commits only up to the last safe structural
boundary unless forced; the boundary choice is abstracted by a function
`sp` picking the committed prefix length, clamped to the buffer length.
`reset` discards buffered state without emitting. -/
structure ChunkerState where
  buffer : Str

def chAppend (c : ChunkerState) (delta : Str) : ChunkerState :=
  ⟨c.buffer ++ delta⟩

def chDrain (sp : Str → Nat) (force : Bool) (c : ChunkerState) : Str × ChunkerState :=
  if force then (c.buffer, ⟨[]⟩)
  else (c.buffer.take (min (sp c.buffer) c.buffer.length),
        c.buffer.drop (min (sp c.buffer) c.buffer.length) |> ChunkerState.mk)

def chReset : ChunkerState := ⟨[]⟩

def chHasBuffered (c : ChunkerState) : Bool := decide (c.buffer ≠ [])

/-- Streaming mode of the Telegram dispatcher: `full` stands for
`streamMode === "partial"` (replace the whole body each time) and
`block` for `streamMode === "block"` (chunked deltas). -/
inductive StreamMode where
  | full
  | block

/-- Dispatcher-side draft accumulation state from
`dispatchTelegramMessage`: `lastPartialText`, `draftText` and the
optional `draftChunker`. -/
structure PState where
  lastPartialText : Str
  draftText : Str
  chunker : Option ChunkerState

def initPState (useChunker : Bool) : PState :=
  { lastPartialText := [], draftText := [],
    chunker := if useChunker then some ⟨[]⟩ else none }

/-- Embedding of `updateDraftFromPartial`: ignore empty or repeated
payloads; in `full` mode adopt the text wholesale; in `block` mode
compute the delta against `lastPartialText`, resetting the chunker and
the accumulated text when the new full text does not extend the
previously seen one, then append the delta and drain committed chunks
into `draftText`. -/
def updateDraftFromPartialText (mode : StreamMode) (sp : Str → Nat)
    (s : PState) (text : Str) : PState :=
  if text = [] then s
  else if text = s.lastPartialText then s
  else
    match mode with
    | .full => { s with lastPartialText := text, draftText := text }
    | .block =>
        if s.lastPartialText.isPrefixOf text then
          let delta := text.drop s.lastPartialText.length
          let s2 := { s with lastPartialText := text }
          if delta = [] then s2
          else
            match s2.chunker with
            | none => { s2 with draftText := text }
            | some c =>
                let c1 := chAppend c delta
                { s2 with draftText := s2.draftText ++ (chDrain sp false c1).1,
                          chunker := some (chDrain sp false c1).2 }
        else
          let s1 := { s with chunker := s.chunker.map (fun _ => chReset),
                             draftText := [] }
          let s2 := { s1 with lastPartialText := text }
          match s2.chunker with
          | none => { s2 with draftText := text }
          | some c =>
              let c1 := chAppend c text
              { s2 with draftText := s2.draftText ++ (chDrain sp false c1).1,
                        chunker := some (chDrain sp false c1).2 }

/-- Embedding of `flushDraft` (the part that finalizes the accumulated
body): force-drain whatever the chunker still buffers into `draftText`
and reset the chunker. -/
def flushDraftStep (sp : Str → Nat) (s : PState) : PState :=
  match s.chunker with
  | some c =>
      if chHasBuffered c = true then
        { s with draftText := s.draftText ++ (chDrain sp true c).1,
                 chunker := some chReset }
      else s
  | none => s

def runPartials (mode : StreamMode) (sp : Str → Nat) (s : PState)
    (texts : List Str) : PState :=
  texts.foldl (updateDraftFromPartialText mode sp) s

/-- Text still held back by the chunker. -/
def buffered (s : PState) : Str :=
  match s.chunker with
  | some c => c.buffer
  | none => []

/-- The value of `lastPartialText` after feeding a list of payloads:
the last non-empty one. -/
def lastFed (texts : List Str) : Str :=
  texts.foldl (fun acc t => if t = [] then acc else t) []

/-- In `full` mode no chunker exists (the dispatcher only creates one
when `streamMode === "block"`). -/
def ModeOK (mode : StreamMode) (s : PState) : Prop :=
  match mode with
  | .full => s.chunker = none
  | .block => True

theorem buffered_none (s : PState) (h : s.chunker = none) : buffered s = [] := by
  unfold buffered
  rw [h]

theorem buffered_some (s : PState) (c : ChunkerState) (h : s.chunker = some c) :
    buffered s = c.buffer := by
  unfold buffered
  rw [h]

theorem chDrain_append (sp : Str → Nat) (force : Bool) (c : ChunkerState) :
    (chDrain sp force c).1 ++ (chDrain sp force c).2.buffer = c.buffer := by
  unfold chDrain
  cases force with
  | true => simp
  | false => simp [List.take_append_drop]

theorem updateDraft_inv (mode : StreamMode) (sp : Str → Nat) (s : PState)
    (text : Str) (hwf : ModeOK mode s)
    (h : s.draftText ++ buffered s = s.lastPartialText) :
    (updateDraftFromPartialText mode sp s text).draftText
        ++ buffered (updateDraftFromPartialText mode sp s text)
      = (updateDraftFromPartialText mode sp s text).lastPartialText
    ∧ ModeOK mode (updateDraftFromPartialText mode sp s text) := by
  unfold updateDraftFromPartialText
  by_cases h0 : text = []
  · rw [if_pos h0]
    exact ⟨h, hwf⟩
  · rw [if_neg h0]
    by_cases h1 : text = s.lastPartialText
    · rw [if_pos h1]
      exact ⟨h, hwf⟩
    · rw [if_neg h1]
      cases mode with
      | full =>
          have hch : s.chunker = none := hwf
          refine ⟨?_, ?_⟩
          · show text ++ buffered { s with lastPartialText := text, draftText := text }
                = text
            rw [buffered_none { s with lastPartialText := text, draftText := text } hch,
              List.append_nil]
          · exact hch
      | block =>
          by_cases h2 : s.lastPartialText.isPrefixOf text
          · rw [if_pos h2]
            obtain ⟨tail, htail⟩ := List.isPrefixOf_iff_prefix.mp h2
            have hdrop : text.drop s.lastPartialText.length = tail := by
              rw [← htail, List.drop_left]
            by_cases h3 : text.drop s.lastPartialText.length = []
            · rw [if_pos h3]
              refine ⟨?_, trivial⟩
              show s.draftText ++ buffered s = text
              rw [h, ← htail, show tail = [] from by rw [← hdrop, h3],
                List.append_nil]
            · rw [if_neg h3]
              cases hch : s.chunker with
              | none =>
                  refine ⟨?_, trivial⟩
                  show text ++ ([] : Str) = text
                  exact List.append_nil text
              | some c =>
                  refine ⟨?_, trivial⟩
                  show (s.draftText
                        ++ (chDrain sp false
                            (chAppend c (text.drop s.lastPartialText.length))).1)
                      ++ (chDrain sp false
                          (chAppend c (text.drop s.lastPartialText.length))).2.buffer
                      = text
                  rw [List.append_assoc, chDrain_append]
                  show s.draftText
                      ++ (c.buffer ++ text.drop s.lastPartialText.length) = text
                  rw [hdrop, ← List.append_assoc, ← buffered_some s c hch, h]
                  exact htail
          · rw [if_neg h2]
            cases hch : s.chunker with
            | none =>
                refine ⟨?_, trivial⟩
                show text ++ ([] : Str) = text
                exact List.append_nil text
            | some c =>
                refine ⟨?_, trivial⟩
                show ([] ++ (chDrain sp false (chAppend chReset text)).1)
                    ++ (chDrain sp false (chAppend chReset text)).2.buffer = text
                rw [List.nil_append, chDrain_append]
                rfl

theorem flushDraft_total (sp : Str → Nat) (s : PState)
    (h : s.draftText ++ buffered s = s.lastPartialText) :
    (flushDraftStep sp s).draftText = s.lastPartialText := by
  unfold flushDraftStep
  cases hch : s.chunker with
  | none =>
      dsimp only
      rw [← h, buffered_none s hch, List.append_nil]
  | some c =>
      dsimp only
      by_cases hb : chHasBuffered c = true
      · rw [if_pos hb]
        show s.draftText ++ (chDrain sp true c).1 = s.lastPartialText
        show s.draftText ++ c.buffer = s.lastPartialText
        rw [← buffered_some s c hch, h]
      · rw [if_neg hb]
        have hnil : c.buffer = [] := by
          by_contra hcon
          exact hb (by simp [chHasBuffered, hcon])
        rw [← h, buffered_some s c hch, hnil, List.append_nil]

theorem runPartials_inv (mode : StreamMode) (sp : Str → Nat)
    (texts : List Str) (s : PState) (acc : Str) (hwf : ModeOK mode s)
    (h : s.draftText ++ buffered s = s.lastPartialText)
    (hacc : s.lastPartialText = acc) :
    (runPartials mode sp s texts).draftText ++ buffered (runPartials mode sp s texts)
        = (runPartials mode sp s texts).lastPartialText
    ∧ (runPartials mode sp s texts).lastPartialText
        = texts.foldl (fun a t => if t = [] then a else t) acc := by
  induction texts generalizing s acc with
  | nil => exact ⟨h, hacc⟩
  | cons t rest ih =>
      obtain ⟨hinv, hwf2⟩ := updateDraft_inv mode sp s t hwf h
      have hlp : (updateDraftFromPartialText mode sp s t).lastPartialText
          = if t = [] then acc else t := by
        unfold updateDraftFromPartialText
        by_cases h0 : t = []
        · rw [if_pos h0, if_pos h0]
          exact hacc
        · rw [if_neg h0, if_neg h0]
          by_cases h1 : t = s.lastPartialText
          · rw [if_pos h1]
            exact h1.symm
          · rw [if_neg h1]
            cases mode with
            | full => rfl
            | block =>
                by_cases h2 : s.lastPartialText.isPrefixOf t
                · rw [if_pos h2]
                  by_cases h3 : t.drop s.lastPartialText.length = []
                  · rw [if_pos h3]
                  · rw [if_neg h3]
                    cases hch : s.chunker <;> rfl
                · rw [if_neg h2]
                  cases hch : s.chunker <;> simp [hch, Option.map]
      exact ih (updateDraftFromPartialText mode sp s t) (if t = [] then acc else t)
        hwf2 hinv hlp

/-- Claim C5: feeding any sequence of full-text payloads through
`updateDraftFromPartial` and then flushing yields a final committed body
equal to the last non-empty payload — restarts that do not extend the
previously seen text are absorbed by resetting the chunker and adopting
the new text as baseline, never by concatenating or losing content. -/
theorem telegram_partial_restart_recovery (mode : StreamMode) (sp : Str → Nat)
    (useChunker : Bool) (texts : List Str)
    (hwf : mode = StreamMode.full → useChunker = false) :
    (flushDraftStep sp (runPartials mode sp (initPState useChunker) texts)).draftText
      = lastFed texts := by
  have hwf0 : ModeOK mode (initPState useChunker) := by
    cases mode with
    | full =>
        show (initPState useChunker).chunker = none
        rw [hwf rfl]
        rfl
    | block => trivial
  have hinit : (initPState useChunker).draftText ++ buffered (initPState useChunker)
      = (initPState useChunker).lastPartialText := by
    cases useChunker <;> rfl
  obtain ⟨hinv, hlp⟩ := runPartials_inv mode sp texts (initPState useChunker) []
    hwf0 hinit rfl
  rw [flushDraft_total sp _ hinv, hlp]
  rfl

/-- C5 witness: the restart scenario from the specification — feeding
"Hello" and then the non-extension "Hi there" through a block chunker
that commits nothing early yields exactly "Hi there". -/
theorem telegram_partial_restart_recovery_witness :
    (flushDraftStep (fun _ => 0)
        (runPartials StreamMode.block (fun _ => 0) (initPState true)
          [['H', 'e', 'l', 'l', 'o'],
           ['H', 'i', ' ', 't', 'h', 'e', 'r', 'e']])).draftText
      = ['H', 'i', ' ', 't', 'h', 'e', 'r', 'e'] := by
  have h := telegram_partial_restart_recovery StreamMode.block (fun _ => 0) true
    [['H', 'e', 'l', 'l', 'o'], ['H', 'i', ' ', 't', 'h', 'e', 'r', 'e']]
    (by intro hcon; cases hcon)
  rw [h]
  rfl

/-- Outcome of one reply payload during the dispatch, as seen by the
`deliver`, `onSkip` and `onError` callbacks of
`dispatchReplyWithBufferedBlockDispatcher` in `dispatchTelegramMessage`:
delivery succeeded, a delivery attempt failed (reported to `onError`),
the payload was skipped silently, or skipped for a non-silent reason. -/
inductive PayloadOutcome where
  | deliveredOk
  | deliveryFailed
  | skippedSilent
  | skippedOther
deriving DecidableEq

/-- The `deliveryState` record of `dispatchTelegramMessage`. -/
structure DeliveryState where
  delivered : Bool
  skippedNonSilent : Nat
deriving DecidableEq

/-- How the callbacks fold one payload outcome into `deliveryState`:
`deliver` sets `delivered` on success, `onSkip` counts non-silent skips,
everything else leaves the record alone. -/
def applyOutcome (st : DeliveryState) : PayloadOutcome → DeliveryState
  | .deliveredOk => { st with delivered := true }
  | .deliveryFailed => st
  | .skippedSilent => st
  | .skippedOther => { st with skippedNonSilent := st.skippedNonSilent + 1 }

def foldDelivery (outs : List PayloadOutcome) : DeliveryState :=
  outs.foldl applyOutcome { delivered := false, skippedNonSilent := 0 }

def producedDelivered (outs : List PayloadOutcome) : Bool :=
  outs.any (fun o => decide (o = .deliveredOk))

def countNonSilentSkips (outs : List PayloadOutcome) : Nat :=
  outs.countP (fun o => decide (o = .skippedOther))

/-- Messages emitted by the tail of `dispatchTelegramMessage` after the
dispatcher returns or throws, plus the resulting `hasFinalResponse`. -/
structure TailResult where
  fallbackNotices : Nat
  errorNotices : Nat
  hasFinalResponse : Bool
deriving DecidableEq

/-- Embedding of the tail of `dispatchTelegramMessage` (lines 712-747):
on normal completion, send one `EMPTY_RESPONSE_FALLBACK` notice iff
nothing was delivered and at least one non-silent skip happened; on a
thrown error, send one fresh error notice iff nothing was delivered.
`fallbackDelivered` and `errorDelivered` are the sink outcomes of those
notices. -/
def dispatchTail (st : DeliveryState) (outcome : Except Unit Bool)
    (fallbackDelivered errorDelivered : Bool) : TailResult :=
  match outcome with
  | .ok queuedFinal =>
      if st.delivered = false ∧ 0 < st.skippedNonSilent then
        { fallbackNotices := 1, errorNotices := 0,
          hasFinalResponse := queuedFinal || fallbackDelivered }
      else
        { fallbackNotices := 0, errorNotices := 0, hasFinalResponse := queuedFinal }
  | .error _ =>
      if st.delivered = false then
        { fallbackNotices := 0, errorNotices := 1, hasFinalResponse := errorDelivered }
      else
        { fallbackNotices := 0, errorNotices := 0, hasFinalResponse := false }

theorem foldDelivery_delivered_aux (outs : List PayloadOutcome) (st : DeliveryState) :
    (outs.foldl applyOutcome st).delivered = (st.delivered || producedDelivered outs) := by
  induction outs generalizing st with
  | nil => simp [producedDelivered]
  | cons o rest ih =>
      cases o <;>
        simp [producedDelivered, List.any_cons, ih, applyOutcome, Bool.or_assoc]

theorem foldDelivery_skips_aux (outs : List PayloadOutcome) (st : DeliveryState) :
    (outs.foldl applyOutcome st).skippedNonSilent
      = st.skippedNonSilent + countNonSilentSkips outs := by
  induction outs generalizing st with
  | nil => simp [countNonSilentSkips]
  | cons o rest ih =>
      cases o <;>
        simp [countNonSilentSkips, List.countP_cons, ih, applyOutcome] <;>
        omega

/-- Claim C6: with the delivery state folded from the payload outcomes of
one dispatch, a normal completion sends exactly one fallback notice when
at least one payload was skipped non-silently and nothing was delivered,
and sends none when no non-silent skip was produced (e.g. a tool-only
turn), whatever was delivered. -/
theorem telegram_fallback_notice (outs : List PayloadOutcome)
    (queuedFinal fOk eOk : Bool) :
    (foldDelivery outs).delivered = producedDelivered outs
    ∧ (foldDelivery outs).skippedNonSilent = countNonSilentSkips outs
    ∧ (producedDelivered outs = false → 0 < countNonSilentSkips outs →
        (dispatchTail (foldDelivery outs) (.ok queuedFinal) fOk eOk).fallbackNotices = 1)
    ∧ (countNonSilentSkips outs = 0 →
        (dispatchTail (foldDelivery outs) (.ok queuedFinal) fOk eOk).fallbackNotices = 0) := by
  have hdel : (foldDelivery outs).delivered = producedDelivered outs := by
    unfold foldDelivery
    rw [foldDelivery_delivered_aux]
    rfl
  have hskip : (foldDelivery outs).skippedNonSilent = countNonSilentSkips outs := by
    unfold foldDelivery
    rw [foldDelivery_skips_aux]
    exact Nat.zero_add _
  refine ⟨hdel, hskip, ?_, ?_⟩
  · intro hnone hskips
    unfold dispatchTail
    dsimp only
    rw [if_pos ⟨by rw [hdel]; exact hnone, by rw [hskip]; exact hskips⟩]
  · intro hzero
    unfold dispatchTail
    dsimp only
    have hcon : ¬((foldDelivery outs).delivered = false
        ∧ 0 < (foldDelivery outs).skippedNonSilent) := by
      intro hc
      rw [hskip, hzero] at hc
      exact absurd hc.2 (by decide)
    rw [if_neg hcon]

/-- C6 witness: one non-silent skip and nothing delivered yields exactly
one fallback notice; a run with no non-silent payload yields none. -/
theorem telegram_fallback_notice_witness :
    (dispatchTail (foldDelivery [PayloadOutcome.skippedOther]) (.ok false)
        true false).fallbackNotices = 1
    ∧ (dispatchTail (foldDelivery [PayloadOutcome.skippedSilent]) (.ok true)
        true false).fallbackNotices = 0 :=
  ⟨(telegram_fallback_notice [PayloadOutcome.skippedOther] false true false).2.2.1
      (by decide) (by decide),
    (telegram_fallback_notice [PayloadOutcome.skippedSilent] true true false).2.2.2
      (by decide)⟩

/-- Claim C7: when the dispatch ends with a thrown error, exactly one
fresh error notice (and no fallback notice) is sent when nothing was
delivered, and no notice at all when content was already delivered; in
the error path `hasFinalResponse` can only come from the fresh error
notice, never from a finalized draft, so a dispatch never counts both. -/
theorem telegram_error_notice (st : DeliveryState) (e : Unit) (fOk eOk : Bool) :
    (st.delivered = false →
        (dispatchTail st (.error e) fOk eOk).errorNotices = 1
        ∧ (dispatchTail st (.error e) fOk eOk).fallbackNotices = 0
        ∧ (dispatchTail st (.error e) fOk eOk).hasFinalResponse = eOk)
    ∧ (st.delivered = true →
        (dispatchTail st (.error e) fOk eOk).errorNotices = 0
        ∧ (dispatchTail st (.error e) fOk eOk).hasFinalResponse = false)
    ∧ ¬((dispatchTail st (.error e) fOk eOk).errorNotices = 1
        ∧ st.delivered = true) := by
  unfold dispatchTail
  dsimp only
  by_cases h : st.delivered = false
  · rw [if_pos h]
    refine ⟨fun _ => ⟨rfl, rfl, rfl⟩, fun htrue => ?_, fun hcon => ?_⟩
    · rw [htrue] at h
      exact absurd h (by decide)
    · rw [hcon.2] at h
      exact absurd h (by decide)
  · rw [if_neg h]
    refine ⟨fun hfalse => absurd hfalse h, fun _ => ⟨rfl, rfl⟩, fun hcon => ?_⟩
    exact absurd hcon.1 (by decide)

/-- C7 witness: concrete error-path instances with and without prior
delivery. -/
theorem telegram_error_notice_witness :
    ((dispatchTail ⟨false, 0⟩ (.error ()) false true).errorNotices = 1
      ∧ (dispatchTail ⟨false, 0⟩ (.error ()) false true).fallbackNotices = 0
      ∧ (dispatchTail ⟨false, 0⟩ (.error ()) false true).hasFinalResponse = true)
    ∧ ((dispatchTail ⟨true, 0⟩ (.error ()) false true).errorNotices = 0
      ∧ (dispatchTail ⟨true, 0⟩ (.error ()) false true).hasFinalResponse = false) :=
  ⟨(telegram_error_notice ⟨false, 0⟩ () false true).1 rfl,
    (telegram_error_notice ⟨true, 0⟩ () false true).2.1 rfl⟩

end Dispatch

namespace Fallback

/-- One candidate model together with its cooldown-ledger entry at
selection time. -/
structure Candidate where
  ref : Nat
  cooldownUntil : Option Nat
  disabledUntil : Option Nat
deriving DecidableEq

/-- A recorded skip-or-failure while walking the candidate list
(`FallbackAttempt` of `model-fallback.ts`; only the fields the claim
speaks about are carried). -/
structure FallbackAttempt where
  ref : Nat
  skipped : Bool
deriving DecidableEq

/-- The payload of `AllModelsFailedError` (class defined in the
repository; its construction site `selectAndStream` is not in this
snapshot). -/
structure AllModelsFailedE where
  attempts : List FallbackAttempt
  allInCooldown : Bool
  retryAfterMs : Option Nat
deriving DecidableEq

/-- A candidate is skipped without being attempted when its ledger entry
has `cooldownUntil > now` or `disabledUntil > now`. -/
def skipCond (now : Nat) (c : Candidate) : Bool :=
  (match c.cooldownUntil with
   | some u => decide (now < u)
   | none => false) ||
  (match c.disabledUntil with
   | some u => decide (now < u)
   | none => false)

/-- Cooldown deadlines of the candidates currently in cooldown. -/
def cooldownTimes (now : Nat) (cands : List Candidate) : List Nat :=
  cands.filterMap (fun c =>
    match c.cooldownUntil with
    | some u => if now < u then some u else none
    | none => none)

def minFold (l : List Nat) : Option Nat :=
  l.foldl (fun acc u =>
    match acc with
    | none => some u
    | some m => some (min m u)) none

/-- Modelled from the spec: `selectAndStream` walks the candidates in
priority order, records a skip-attempt for each candidate in cooldown,
otherwise invokes it (`invoke c = true` meaning the stream call
succeeded) and on success returns that candidate; a failed invocation is
recorded as a failure-attempt and the walk continues. -/
def walk (now : Nat) (invoke : Candidate → Bool) :
    List Candidate → List FallbackAttempt → List FallbackAttempt ⊕ Candidate
  | [], attempts => .inl attempts.reverse
  | c :: rest, attempts =>
      if skipCond now c = true then
        walk now invoke rest ({ ref := c.ref, skipped := true } :: attempts)
      else if invoke c = true then .inr c
      else walk now invoke rest ({ ref := c.ref, skipped := false } :: attempts)

/-- Modelled from the spec: on exhaustion `selectAndStream` throws
`AllModelsFailedError{attempts, allInCooldown, retryAfterMs}` with
`allInCooldown` true iff no candidate was actually attempted and
`retryAfterMs = min(cooldownUntil) - now` over the candidates currently
in cooldown. -/
def selectAndStream (now : Nat) (invoke : Candidate → Bool)
    (cands : List Candidate) : Except AllModelsFailedE Candidate :=
  match walk now invoke cands [] with
  | .inr c => .ok c
  | .inl attempts =>
      .error
        { attempts := attempts,
          allInCooldown := attempts.all (fun a => a.skipped),
          retryAfterMs := (minFold (cooldownTimes now cands)).map (fun m => m - now) }

theorem walk_exhausted (now : Nat) (invoke : Candidate → Bool)
    (cands : List Candidate)
    (hfail : ∀ c ∈ cands, skipCond now c = true ∨ invoke c = false) :
    ∀ acc, walk now invoke cands acc
      = .inl (acc.reverse ++ cands.map (fun c => ⟨c.ref, skipCond now c⟩)) := by
  induction cands with
  | nil => intro acc; simp [walk]
  | cons c rest ih =>
      intro acc
      have hc := hfail c (List.mem_cons_self c rest)
      have hrest : ∀ x ∈ rest, skipCond now x = true ∨ invoke x = false :=
        fun x hx => hfail x (List.mem_cons_of_mem c hx)
      by_cases hs : skipCond now c = true
      · rw [walk, if_pos hs, ih hrest]
        simp [hs]
      · have hinv : invoke c = false := by
          rcases hc with hcs | hcf
          · exact absurd hcs hs
          · exact hcf
        rw [walk, if_neg hs, if_neg (by rw [hinv]; decide), ih hrest]
        have hsf : skipCond now c = false := by
          cases hval : skipCond now c
          · rfl
          · exact absurd hval hs
        simp [hsf]

theorem minFold_ne_none (v : Nat) (rest : List Nat) : minFold (v :: rest) ≠ none := by
  have haux : ∀ (rest2 : List Nat) (a : Nat),
      rest2.foldl (fun acc u =>
        match acc with
        | none => some u
        | some m2 => some (min m2 u)) (some a) ≠ none := by
    intro rest2
    induction rest2 with
    | nil => intro a h; exact Option.noConfusion h
    | cons w ws ih => intro a h; exact ih (min a w) h
  intro hcon
  unfold minFold at hcon
  rw [List.foldl_cons] at hcon
  exact haux rest v hcon

theorem minFold_spec (l : List Nat) :
    (l = [] → minFold l = none)
    ∧ (∀ m, minFold l = some m → m ∈ l ∧ ∀ u ∈ l, m ≤ u) := by
  constructor
  · intro h; rw [h]; rfl
  · suffices haux : ∀ acc m, (l.foldl (fun acc u =>
        match acc with
        | none => some u
        | some m2 => some (min m2 u)) acc) = some m →
        (acc = some m ∨ m ∈ l) ∧ (∀ u ∈ l, m ≤ u)
          ∧ (∀ a, acc = some a → m ≤ a) by
      intro m hm
      obtain ⟨h1, h2, _⟩ := haux none m hm
      rcases h1 with h1 | h1
      · exact absurd h1 (by simp)
      · exact ⟨h1, h2⟩
    induction l with
    | nil =>
        intro acc m hm
        refine ⟨Or.inl hm, by simp, ?_⟩
        intro a ha
        rw [ha] at hm
        simp at hm
        omega
    | cons u rest ih =>
        intro acc m hm
        rw [List.foldl_cons] at hm
        cases acc with
        | none =>
            obtain ⟨h1, h2, h3⟩ := ih (some u) m hm
            rcases h1 with h1 | h1
            · simp at h1
              refine ⟨Or.inr (by rw [h1]; exact List.mem_cons_self m rest), ?_, ?_⟩
              · intro v hv
                rcases List.mem_cons.mp hv with hv | hv
                · rw [hv, h1]
                · exact h2 v hv
              · intro a ha
                simp at ha
            · refine ⟨Or.inr (List.mem_cons_of_mem u h1), ?_, ?_⟩
              · intro v hv
                rcases List.mem_cons.mp hv with hv | hv
                · rw [hv]; exact h3 u rfl
                · exact h2 v hv
              · intro a ha
                simp at ha
        | some a0 =>
            obtain ⟨h1, h2, h3⟩ := ih (some (min a0 u)) m hm
            have hma : m ≤ a0 ∧ m ≤ u := by
              rcases h1 with h1 | h1
              · simp at h1
                omega
              · have := h3 (min a0 u) rfl
                constructor <;> omega
            refine ⟨?_, ?_, ?_⟩
            · rcases h1 with h1 | h1
              · simp at h1
                rcases Nat.le_total a0 u with hle | hle
                · left
                  rw [Nat.min_eq_left hle] at h1
                  rw [h1]
                · right
                  rw [Nat.min_eq_right hle] at h1
                  rw [h1]
                  exact List.mem_cons_self m rest
              · exact Or.inr (List.mem_cons_of_mem u h1)
            · intro v hv
              rcases List.mem_cons.mp hv with hv | hv
              · rw [hv]; exact hma.2
              · exact h2 v hv
            · intro a ha
              injection ha with ha
              rw [← ha]
              exact hma.1

/-- Claim C8 (spec-modelled): when every candidate is exhausted — each
one either in cooldown or failing on invocation — `selectAndStream`
throws an `AllModelsFailedError` whose `attempts` records one entry per
candidate in order, whose `allInCooldown` is true iff every candidate was
skipped without being attempted, and whose `retryAfterMs` is the minimum
`cooldownUntil` over the candidates currently in cooldown minus `now`
(and absent when no candidate is in cooldown). -/
theorem fallback_exhaustion_error (now : Nat) (invoke : Candidate → Bool)
    (cands : List Candidate)
    (hfail : ∀ c ∈ cands, skipCond now c = true ∨ invoke c = false) :
    ∃ e : AllModelsFailedE,
      selectAndStream now invoke cands = .error e
      ∧ e.attempts = cands.map (fun c => ⟨c.ref, skipCond now c⟩)
      ∧ (e.allInCooldown = true ↔ ∀ c ∈ cands, skipCond now c = true)
      ∧ ((∀ c ∈ cands, ∀ u, c.cooldownUntil = some u → u ≤ now) →
          e.retryAfterMs = none)
      ∧ (∀ c0 ∈ cands, ∀ u0, c0.cooldownUntil = some u0 → now < u0 →
          ∃ m, e.retryAfterMs = some (m - now)
            ∧ (∃ c ∈ cands, c.cooldownUntil = some m ∧ now < m)
            ∧ (∀ c ∈ cands, ∀ u, c.cooldownUntil = some u → now < u → m ≤ u)) := by
  refine ⟨{ attempts := cands.map (fun c => ⟨c.ref, skipCond now c⟩),
            allInCooldown := (cands.map (fun c =>
              (⟨c.ref, skipCond now c⟩ : FallbackAttempt))).all (fun a => a.skipped),
            retryAfterMs := (minFold (cooldownTimes now cands)).map (fun m => m - now) },
    ?_, rfl, ?_, ?_, ?_⟩
  · unfold selectAndStream
    rw [walk_exhausted now invoke cands hfail []]
    rfl
  · simp [List.all_map, List.all_eq_true, Function.comp]
  · intro hnone
    have hempty : cooldownTimes now cands = [] := by
      unfold cooldownTimes
      rw [List.filterMap_eq_nil_iff]
      intro c hc
      cases hcu : c.cooldownUntil with
      | none => rfl
      | some u =>
          have := hnone c hc u hcu
          simp [Nat.not_lt.mpr this]
    rw [hempty]
    rfl
  · intro c0 hc0 u0 hcu0 hlt0
    have hmem : u0 ∈ cooldownTimes now cands := by
      unfold cooldownTimes
      rw [List.mem_filterMap]
      exact ⟨c0, hc0, by rw [hcu0]; simp [hlt0]⟩
    have hne : cooldownTimes now cands ≠ [] := by
      intro hnil
      rw [hnil] at hmem
      simp at hmem
    obtain ⟨m, hm⟩ : ∃ m, minFold (cooldownTimes now cands) = some m := by
      cases hval : minFold (cooldownTimes now cands) with
      | some m => exact ⟨m, rfl⟩
      | none =>
          exfalso
          cases hl : cooldownTimes now cands with
          | nil => exact hne hl
          | cons v rest =>
              exact minFold_ne_none v rest (by rw [← hl]; exact hval)
    obtain ⟨hmmem, hmmin⟩ := (minFold_spec (cooldownTimes now cands)).2 m hm
    refine ⟨m, by rw [hm]; rfl, ?_, ?_⟩
    · unfold cooldownTimes at hmmem
      rw [List.mem_filterMap] at hmmem
      obtain ⟨c, hc, hcm⟩ := hmmem
      cases hcu : c.cooldownUntil with
      | none => rw [hcu] at hcm; simp at hcm
      | some u =>
          rw [hcu] at hcm
          dsimp only at hcm
          by_cases hlt : now < u
          · rw [if_pos hlt] at hcm
            injection hcm with hcm
            exact ⟨c, hc, by rw [hcu, hcm], by rw [← hcm]; exact hlt⟩
          · rw [if_neg hlt] at hcm
            exact absurd hcm (by simp)
    · intro c hc u hcu hlt
      refine hmmin u ?_
      unfold cooldownTimes
      rw [List.mem_filterMap]
      exact ⟨c, hc, by rw [hcu]; simp [hlt]⟩

/-- C8 witness: three candidates all in cooldown (deadlines 2000, 1500,
3000 at `now = 1000`), every invocation failing. -/
theorem fallback_exhaustion_error_witness :
    ∃ e : AllModelsFailedE,
      selectAndStream 1000 (fun _ => false)
          [⟨1, some 2000, none⟩, ⟨2, some 1500, none⟩, ⟨3, some 3000, none⟩]
        = Except.error e
      ∧ e.allInCooldown = true := by
  obtain ⟨e, he, _, hiff, _, _⟩ := fallback_exhaustion_error 1000 (fun _ => false)
    [⟨1, some 2000, none⟩, ⟨2, some 1500, none⟩, ⟨3, some 3000, none⟩]
    (by decide)
  exact ⟨e, he, hiff.mpr (by decide)⟩

end Fallback

namespace Ledger

open Draft (Str)

/-- Per-model cooldown bookkeeping inside a profile entry
(`ModelUsageStats`). -/
structure ModelStat where
  errorCount : Option Nat
  cooldownUntil : Option Nat
deriving DecidableEq

/-- A profile's usage-stats entry (`ProfileUsageStats`).  The fields are
the ones `resetCooldownsCommand` reads and deletes; `otherStats` stands
for whatever other persisted data the entry carries, which the reset
must not touch. -/
structure ProfileUsageStats where
  errorCount : Option Nat
  cooldownUntil : Option Nat
  disabledUntil : Option Nat
  disabledReason : Option Str
  failureCounts : Option Nat
  lastFailureAt : Option Nat
  modelStats : Option (List (Str × ModelStat))
  otherStats : Nat
deriving DecidableEq

/-- The clearing loop body of `resetCooldownsCommand`: delete the
profile-level cooldown fields and the whole `modelStats` map. -/
def clearCooldownFields (st : ProfileUsageStats) : ProfileUsageStats :=
  { st with errorCount := none, cooldownUntil := none, disabledUntil := none,
            disabledReason := none, failureCounts := none, lastFailureAt := none,
            modelStats := none }

/-- The provider part of a profile id: `profileId.split(":")[0]`. -/
def profileProvider (profileId : Str) : Str :=
  profileId.takeWhile (fun c => decide (c ≠ ':'))

/-- Whether an entry matches the optional `--provider` filter. -/
def matchesProvider (filter : Option Str) (profileId : Str) : Bool :=
  match filter with
  | none => true
  | some p => decide (profileProvider profileId = p)

/-- The auth-profile store as the command sees it: the `usageStats` map
(as an association list) plus `otherStore` standing for every other part
of the persisted store. -/
structure AuthProfileStore where
  usageStats : List (Str × ProfileUsageStats)
  otherStore : Nat
deriving DecidableEq

/-- The store after the command, plus whether `saveAuthProfileStore`
was called. -/
structure ResetOutcome where
  store : AuthProfileStore
  saved : Bool
deriving DecidableEq

/-- Embedding of `resetCooldownsCommand`: return without saving when
there are no usage stats, when no entry matches the filter, or on
`--dry-run`; otherwise clear every matching entry and save. -/
def resetCooldowns (store : AuthProfileStore) (filter : Option Str)
    (dryRun : Bool) : ResetOutcome :=
  if store.usageStats = [] then { store := store, saved := false }
  else if store.usageStats.all (fun kv => !matchesProvider filter kv.1) = true then
    { store := store, saved := false }
  else if dryRun = true then { store := store, saved := false }
  else
    { store := { store with usageStats := store.usageStats.map (fun kv =>
        if matchesProvider filter kv.1 = true then (kv.1, clearCooldownFields kv.2)
        else kv) },
      saved := true }

theorem resetCooldowns_cases (store : AuthProfileStore) (filter : Option Str)
    (dryRun : Bool) :
    (resetCooldowns store filter dryRun = { store := store, saved := false }
      ∧ (dryRun = true ∨ ∀ kv ∈ store.usageStats, matchesProvider filter kv.1 = false))
    ∨ (dryRun = false
      ∧ resetCooldowns store filter dryRun
          = { store := { store with usageStats := store.usageStats.map (fun kv =>
                if matchesProvider filter kv.1 = true then
                  (kv.1, clearCooldownFields kv.2)
                else kv) },
              saved := true }) := by
  unfold resetCooldowns
  by_cases h0 : store.usageStats = []
  · rw [if_pos h0]
    left
    refine ⟨rfl, Or.inr ?_⟩
    intro kv hkv
    rw [h0] at hkv
    simp at hkv
  · rw [if_neg h0]
    by_cases h1 : store.usageStats.all (fun kv => !matchesProvider filter kv.1) = true
    · rw [if_pos h1]
      left
      refine ⟨rfl, Or.inr ?_⟩
      intro kv hkv
      have := List.all_eq_true.mp h1 kv hkv
      simpa using this
    · rw [if_neg h1]
      by_cases h2 : dryRun = true
      · rw [if_pos h2]
        exact Or.inl ⟨rfl, Or.inl h2⟩
      · rw [if_neg h2]
        right
        refine ⟨?_, rfl⟩
        cases hval : dryRun
        · rfl
        · exact absurd hval h2

/-- Claim C9: a dry run changes nothing and never saves; otherwise the
reset keeps the rest of the store and the entry count, keeps every key,
clears exactly the cooldown fields (`errorCount`, `cooldownUntil`,
`disabledUntil`, `disabledReason`, `failureCounts`, `lastFailureAt` and
the per-model stats) of every entry whose provider matches the filter
while preserving its other data, and leaves every non-matching entry
completely unchanged. -/
theorem reset_cooldowns_frame (store : AuthProfileStore) (filter : Option Str)
    (dryRun : Bool) :
    (dryRun = true → (resetCooldowns store filter dryRun).store = store
        ∧ (resetCooldowns store filter dryRun).saved = false)
    ∧ (resetCooldowns store filter dryRun).store.otherStore = store.otherStore
    ∧ (resetCooldowns store filter dryRun).store.usageStats.length
        = store.usageStats.length
    ∧ ∀ (i : Nat) (h1 : i < store.usageStats.length)
        (h2 : i < (resetCooldowns store filter dryRun).store.usageStats.length),
        ((resetCooldowns store filter dryRun).store.usageStats[i].1
            = store.usageStats[i].1)
        ∧ (dryRun = false → matchesProvider filter store.usageStats[i].1 = true →
            (resetCooldowns store filter dryRun).store.usageStats[i].2.errorCount = none
            ∧ (resetCooldowns store filter dryRun).store.usageStats[i].2.cooldownUntil
                = none
            ∧ (resetCooldowns store filter dryRun).store.usageStats[i].2.disabledUntil
                = none
            ∧ (resetCooldowns store filter dryRun).store.usageStats[i].2.disabledReason
                = none
            ∧ (resetCooldowns store filter dryRun).store.usageStats[i].2.failureCounts
                = none
            ∧ (resetCooldowns store filter dryRun).store.usageStats[i].2.lastFailureAt
                = none
            ∧ (resetCooldowns store filter dryRun).store.usageStats[i].2.modelStats
                = none
            ∧ (resetCooldowns store filter dryRun).store.usageStats[i].2.otherStats
                = store.usageStats[i].2.otherStats)
        ∧ (matchesProvider filter store.usageStats[i].1 = false →
            (resetCooldowns store filter dryRun).store.usageStats[i]
              = store.usageStats[i]) := by
  rcases resetCooldowns_cases store filter dryRun with ⟨heq, hside⟩ | ⟨hdry, heq⟩
  · rw [heq]
    refine ⟨fun _ => ⟨rfl, rfl⟩, rfl, rfl, ?_⟩
    intro i h1 h2
    refine ⟨rfl, ?_, fun _ => rfl⟩
    intro hdfalse hmatch
    rcases hside with hside | hside
    · rw [hside] at hdfalse
      exact absurd hdfalse (by decide)
    · have hmem : store.usageStats[i] ∈ store.usageStats := List.getElem_mem h1
      have hfalse := hside store.usageStats[i] hmem
      rw [hmatch] at hfalse
      exact absurd hfalse (by decide)
  · rw [heq]
    refine ⟨?_, rfl, by simp, ?_⟩
    · intro h
      rw [hdry] at h
      exact absurd h (by decide)
    · intro i h1 h2
      have hget : ({ store with usageStats := store.usageStats.map (fun kv =>
          if matchesProvider filter kv.1 = true then (kv.1, clearCooldownFields kv.2)
          else kv) } : AuthProfileStore).usageStats[i]
          = (fun kv => if matchesProvider filter kv.1 = true then
              (kv.1, clearCooldownFields kv.2) else kv) store.usageStats[i] := by
        simp
      rw [hget]
      dsimp only
      by_cases hm : matchesProvider filter store.usageStats[i].1 = true
      · rw [if_pos hm]
        exact ⟨rfl, fun _ _ => ⟨rfl, rfl, rfl, rfl, rfl, rfl, rfl, rfl⟩,
          fun hnm => absurd hm (by rw [hnm]; decide)⟩
      · rw [if_neg hm]
        refine ⟨rfl, fun _ hmatch => absurd hmatch hm, fun _ => rfl⟩

end Ledger
